/-
Verification of the WordDumb annotation-resolution and offset-splicing engine
(src/epub.py, src/parse_job.py).

The mutable `EPUB` object state is modelled as an explicit record; the Python
dicts (insertion ordered) are modelled as association lists where assigning a
fresh key appends at the end, assigning a present key updates in place, and
`del` removes the entry.  External collaborators that are not part of src/
(the rapidfuzz token-set scorer, the mediawiki module's FUZZ_THRESHOLD and
is_full_name, the description/gloss caches and the CJK language list) are
parameters collected in `EpubEnv`.
-/
import Mathlib

set_option maxHeartbeats 1000000

namespace WordDumb

/-- Entity record stored as a value of the `EPUB.entities` dict
(epub.py lines 152-158): stable integer identifier, NER label, fallback
sentence quote, mention count. -/
structure EntityData where
  id : Nat
  label : String
  quote : String
  count : Nat
deriving DecidableEq

/-- The tagged reference stored in the fourth slot of an occurrence tuple:
X-Ray occurrences carry the integer entity id, Word Wise occurrences carry the
lemma string (epub.py lines 161-166; the splicer distinguishes them with
`isinstance(entity_id, int)`, line 208). -/
inductive AnnRef where
  | ent (id : Nat)
  | lem (word : String)
deriving DecidableEq

/-- One element of `EPUB.entity_occurrences[xhtml_path]`:
the tuple `(start, end, origin_entity, entity_id)`. -/
structure Occurrence where
  start : Nat
  stop : Nat
  display : String
  ref : AnnRef
deriving DecidableEq

/-- The arguments of one `EPUB.add_entity` call (epub.py lines 127-128). -/
structure Call where
  entity : String
  ner_label : String
  book_quote : String
  start : Nat
  stop : Nat
  xhtml_path : String
  origin_entity : String
deriving DecidableEq

/-- Modelled from the spec: the external collaborators used by `EPUB` whose
code is not under src/ — the rapidfuzz `token_set_ratio` scorer (a similarity
score in 0..100), the mediawiki module's `FUZZ_THRESHOLD` constant and
`is_full_name(matched_name, matched_label, entity, ner_label)` predicate, the
caller-pinned `custom_x_ray` table, the mediawiki description cache
(`get_cache(name) -> optional summary`), the lemma gloss lookup
(`get_lemma_gloss` returning short gloss, full gloss, example) and the
`CJK_LANGS` list from utils (spec sections 4.1, 4.3, 4.6 and 6). -/
structure EpubEnv where
  scorer : String → String → ℚ
  fuzz_threshold : ℚ
  is_full_name : String → String → String → String → Bool
  custom_x_ray : List String
  get_cache : String → Option String
  lemma_glosses : String → String × String × String
  cjk_langs : List String

/-- The annotation state of an `EPUB` object (epub.py `__init__`,
lines 51-66): the entity id counter, the canonical entity table, the
per-document-part occurrence index (a `defaultdict(list)`), the suppressed id
set (a Python set, modelled as the list of ids in insertion order), the lemma
table and the lemma id counter. -/
structure XRayState where
  entity_id : Nat
  entities : List (String × EntityData)
  entity_occurrences : List (String × List Occurrence)
  removed_entity_ids : List Nat
  lemmas : List (String × Nat)
  lemma_id : Nat
deriving DecidableEq

/-- The state of a freshly constructed `EPUB` object. -/
def initState : XRayState :=
  { entity_id := 0, entities := [], entity_occurrences := [],
    removed_entity_ids := [], lemmas := [], lemma_id := 0 }

/-- Python `dict.get`: value of the first (unique) entry with the given key. -/
def lookupDict {α : Type} : List (String × α) → String → Option α
  | [], _ => none
  | p :: rest, k => if p.1 == k then some p.2 else lookupDict rest k

/-- Python dict assignment `d[k] = v`: update in place if the key is present,
otherwise append the new entry at the end of the insertion order. -/
def dictSet {α : Type} : List (String × α) → String → α → List (String × α)
  | [], k, v => [(k, v)]
  | p :: rest, k, v => if p.1 == k then (k, v) :: rest else p :: dictSet rest k v

/-- Python `del d[k]`: remove the (unique) entry with the given key. -/
def eraseKey {α : Type} : List (String × α) → String → List (String × α)
  | [], _ => []
  | p :: rest, k => if p.1 == k then rest else p :: eraseKey rest k

/-- `defaultdict(list)` append: `d[k].append(v)` (epub.py lines 161-163, 166). -/
def appendOcc : List (String × List Occurrence) → String → Occurrence →
    List (String × List Occurrence)
  | [], k, v => [(k, [v])]
  | p :: rest, k, v =>
    if p.1 == k then (p.1, p.2 ++ [v]) :: rest else p :: appendOcc rest k v

/-- The keys of an association list are pairwise distinct (always true of a
Python dict). -/
def keysNodup {α : Type} (l : List (String × α)) : Prop :=
  (l.map (fun p => p.1)).Nodup

instance {α : Type} (l : List (String × α)) : Decidable (keysNodup l) := by
  unfold keysNodup; infer_instance

/-- Loop of rapidfuzz `process.extractOne`: scan the choices left to right
keeping the best-scoring one at or above the cutoff; a tie keeps the earlier
choice.  The choices here are the entries of the entity dict (the source
passes `self.entities.keys()` and then indexes the dict with the winner;
returning the entry pairs key and record in one step). -/
def extractOneLoop (scorer : String → String → ℚ) (query : String) (cutoff : ℚ) :
    List (String × EntityData) → Option ((String × EntityData) × ℚ) →
    Option ((String × EntityData) × ℚ)
  | [], best => best
  | ch :: rest, best =>
    let sc := scorer query ch.1
    let best2 :=
      match best with
      | none => if cutoff ≤ sc then some (ch, sc) else none
      | some b => if b.2 < sc then some (ch, sc) else some b
    extractOneLoop scorer query cutoff rest best2

/-- rapidfuzz `extractOne(query, choices, score_cutoff, scorer)`
(epub.py lines 137-142). -/
def extractOne (scorer : String → String → ℚ) (query : String)
    (choices : List (String × EntityData)) (cutoff : ℚ) :
    Option ((String × EntityData) × ℚ) :=
  extractOneLoop scorer query cutoff choices none

/-- The branch structure of `EPUB.add_entity` (epub.py lines 127-159), without
the final occurrence append: exact dict hit increments the count and reuses
the id; otherwise, for a non-pinned string, an accepted fuzzy match increments
the matched record's count, reuses its id and, when `is_full_name` judges the
new surface text a fuller name, re-keys the record to the new surface text
(`self.entities[entity] = matched_entity; del self.entities[matched_name]`);
otherwise a new record is created with the next id.  Returns the new state and
the entity id used. -/
def add_entity_core (env : EpubEnv) (s : XRayState) (c : Call) : XRayState × Nat :=
  match lookupDict s.entities c.entity with
  | some entity_data =>
    ({ s with entities := (dictSet s.entities c.entity
        { entity_data with count := entity_data.count + 1 }) }, entity_data.id)
  | none =>
    match (if c.entity ∈ env.custom_x_ray then none
           else extractOne env.scorer c.entity s.entities env.fuzz_threshold) with
    | some r =>
      let matched_name := r.1.1
      let matched_entity := r.1.2
      let d2 := { matched_entity with count := matched_entity.count + 1 }
      let ents1 := dictSet s.entities matched_name d2
      ({ s with entities :=
          if env.is_full_name matched_name matched_entity.label c.entity c.ner_label then
            eraseKey (dictSet ents1 c.entity d2) matched_name
          else ents1 }, matched_entity.id)
    | none =>
      ({ s with
          entities := dictSet s.entities c.entity
            { id := s.entity_id, label := c.ner_label,
              quote := c.book_quote, count := 1 },
          entity_id := s.entity_id + 1 }, s.entity_id)

/-- `EPUB.add_entity` (epub.py lines 127-163): the branch above followed by
the unconditional occurrence append
`self.entity_occurrences[xhtml_path].append((start, end, origin_entity, entity_id))`. -/
def add_entity (env : EpubEnv) (s : XRayState) (c : Call) : XRayState × Nat :=
  let r := add_entity_core env s c
  ({ r.1 with entity_occurrences := (appendOcc r.1.entity_occurrences c.xhtml_path
      ⟨c.start, c.stop, c.origin_entity, AnnRef.ent r.2⟩) }, r.2)

/-- Run a sequence of `add_entity` calls, collecting the sequence of entity
ids used by the successive calls. -/
def runAdds (env : EpubEnv) (s : XRayState) (calls : List Call) :
    XRayState × List Nat :=
  calls.foldl
    (fun acc c =>
      let r := add_entity env acc.1 c
      (r.1, acc.2 ++ [r.2]))
    (s, [])

/-- `EPUB.add_lemma` (epub.py lines 165-169): append the occurrence tuple
`(start, end, origin_text, lemma)`, then register the lemma with the next
lemma id if it is not yet in the table. -/
def add_lemma (s : XRayState) (lemma_str : String) (start stop : Nat)
    (xhtml_path origin_text : String) : XRayState :=
  let s1 := { s with entity_occurrences := (appendOcc s.entity_occurrences xhtml_path
      ⟨start, stop, origin_text, AnnRef.lem lemma_str⟩) }
  if lookupDict s1.lemmas lemma_str = none then
    { s1 with lemmas := s1.lemmas ++ [(lemma_str, s1.lemma_id)],
              lemma_id := s1.lemma_id + 1 }
  else s1

/-- The pruning condition of `EPUB.remove_entities` (epub.py lines 173-177):
count below the threshold, no cached mediawiki description, not a
caller-pinned custom entity. -/
def suppressCond (env : EpubEnv) (minimal_count : Nat)
    (p : String × EntityData) : Prop :=
  p.2.count < minimal_count ∧ env.get_cache p.1 = none ∧ p.1 ∉ env.custom_x_ray

instance (env : EpubEnv) (m : Nat) (p : String × EntityData) :
    Decidable (suppressCond env m p) := by
  unfold suppressCond; infer_instance

/-- One iteration of the `EPUB.remove_entities` loop (epub.py lines 172-179):
when the pruning condition holds, delete the entry from `self.entities` and
add its id to `self.removed_entity_ids`. -/
def pruneStep (env : EpubEnv) (minimal_count : Nat) (st : XRayState)
    (p : String × EntityData) : XRayState :=
  if suppressCond env minimal_count p then
    { st with entities := eraseKey st.entities p.1,
              removed_entity_ids := st.removed_entity_ids ++ [p.2.id] }
  else st

/-- `EPUB.remove_entities` (epub.py lines 171-179): iterate over a copy of the
entity table (`self.entities.copy().items()`), applying `pruneStep` to the
live state. -/
def remove_entities (env : EpubEnv) (minimal_count : Nat) (s : XRayState) :
    XRayState :=
  s.entities.foldl (pruneStep env minimal_count) s

/-- The sequence of footnote `aside` ids emitted by
`EPUB.create_x_ray_footnotes` (epub.py lines 252-291): the method iterates
`self.entities.items()` in dict order and each iteration emits exactly one
`<aside id="{data[\x22id\x22]}">` element (custom branch, cached branch or
fallback quote branch). -/
def x_ray_footnote_ids (s : XRayState) : List Nat :=
  s.entities.map (fun p => p.2.id)

/-- Python string/list slice `buf[a:b]` (clamping, empty when `b ≤ a`). -/
def slice {α : Type} (buf : List α) (a b : Nat) : List α :=
  (buf.drop a).take (b - a)

/-- Membership test `entity_id in self.removed_entity_ids` (epub.py line 205):
a lemma occurrence carries a string, which is never in the set of ints. -/
def isRemoved (removed : List Nat) : AnnRef → Bool
  | AnnRef.ent i => removed.contains i
  | AnnRef.lem _ => false

/-- The X-Ray anchor markup of epub.py line 209. -/
def x_ray_anchor (entity_id : Nat) (display : String) : String :=
  "<a epub:type=\"noteref\" href=\"x_ray.xhtml#" ++ toString entity_id ++ "\">"
    ++ display ++ "</a>"

/-- `EPUB.build_word_wise_tag` (epub.py lines 230-237): fetch the short gloss,
pick the language-dependent length ratio (5 for CJK languages, 2.5 otherwise),
and emit a plain noteref anchor when the gloss is too long relative to the
word, otherwise a ruby-decorated anchor with the inline gloss inside
parenthetical fallback markers. -/
def build_word_wise_tag (env : EpubEnv) (lemmas : List (String × Nat))
    (lang word origin_word : String) : String :=
  let short_def := (env.lemma_glosses word).1
  let len_ratio : ℚ := if lang ∈ env.cjk_langs then 5 else 2.5
  let word_id := (lookupDict lemmas word).getD 0
  if (short_def.length : ℚ) / (word.length : ℚ) > len_ratio then
    "<a epub:type=\"noteref\" href=\"word_wise.xhtml#" ++ toString word_id ++ "\">"
      ++ origin_word ++ "</a>"
  else
    "<ruby><a epub:type=\"noteref\" href=\"word_wise.xhtml#" ++ toString word_id
      ++ "\">" ++ origin_word ++ "</a><rp>(</rp><rt>" ++ short_def
      ++ "</rt><rp>)</rp></ruby>"

/-- The markup the splicer inserts for one occurrence (epub.py lines 208-211):
an X-Ray anchor for an integer entity id, a Word Wise tag for a lemma string. -/
def tagOf (env : EpubEnv) (lemmas : List (String × Nat)) (lang : String)
    (sp : Occurrence) : List Char :=
  match sp.ref with
  | AnnRef.ent i => (x_ray_anchor i sp.display).data
  | AnnRef.lem w => (build_word_wise_tag env lemmas lang w sp.display).data

/-- One non-suppressed iteration of the splice loop: copy the original buffer
from the cursor to the span start, emit the markup, move the cursor to the
span end. -/
def spliceStep (tag : Occurrence → List Char) (buf : List Char)
    (acc : List Char × Nat) (sp : Occurrence) : List Char × Nat :=
  (acc.1 ++ slice buf acc.2 sp.start ++ tag sp, sp.stop)

/-- The splice loop of `EPUB.insert_anchor_elements` for one document part
(epub.py lines 202-213): walk the spans in list order with a cursor
`last_end`, skipping suppressed ids without moving the cursor (`continue`),
and finally copy the buffer tail.  The markup builder is a parameter
(instantiated with `tagOf` by the source). -/
def insert_anchors (removed : List Nat) (tag : Occurrence → List Char)
    (buf : List Char) (spans : List Occurrence) : List Char :=
  let r := spans.foldl
    (fun acc sp =>
      if isRemoved removed sp.ref then acc else spliceStep tag buf acc sp)
    (([] : List Char), 0)
  r.1 ++ buf.drop r.2

/-- The intended shape of a spliced part (spec section 4.4): verbatim slice up
to each span, its markup, and the verbatim tail after the last span. -/
def spliceSpecFrom (tag : Occurrence → List Char) (buf : List Char) :
    Nat → List Occurrence → List Char
  | le, [] => buf.drop le
  | le, sp :: rest =>
    slice buf le sp.start ++ tag sp ++ spliceSpecFrom tag buf sp.stop rest

/-- Spans are sorted ascending by start and pairwise non-overlapping, measured
from a cursor position: each span starts at or after the cursor, ends at or
after its start, and the rest is chained from its end (spec sections 3 and
4.4 state this as the splicing precondition). -/
def chainedB : Nat → List Occurrence → Bool
  | _, [] => true
  | le, sp :: rest =>
    decide (le ≤ sp.start) && decide (sp.start ≤ sp.stop) && chainedB sp.stop rest

/-- UTF-8 byte count of a character sequence (`len(text.encode("utf-8"))`). -/
def utf8Len (l : List Char) : Nat := (l.map Char.utf8Size).sum

/-- Modelled from the spec (section 6): the offset unit native to the source
format — character count for KFX, UTF-8 byte count for the MOBI family. -/
def unitLen (is_kfx : Bool) (l : List Char) : Nat :=
  if is_kfx then l.length else utf8Len l

/-- One keyword hit returned by `kw_processor.extract_keywords(text,
span_info=True)` (parse_job.py lines 101-102): the lemma data tuple and the
character span of the match inside the fragment. -/
structure KwMatch where
  data : String
  tokenStart : Nat
  tokenEnd : Nat
deriving DecidableEq

/-- `find_lemma` (parse_job.py lines 100-112): for each keyword hit compute
the absolute start offset (character offset for KFX, UTF-8 byte offset of the
prefix otherwise) and, only when the matched lemma text contains a space, an
end offset start + length of the lemma in the same unit; each hit yields one
`insert_lemma` row `(index, end, *data)`. -/
def find_lemma (start : Nat) (text : List Char) (hits : List KwMatch)
    (is_kfx : Bool) : List (Nat × Option Nat × String) :=
  hits.map (fun m =>
    let lemma_text := slice text m.tokenStart m.tokenEnd
    let index := if is_kfx then start + m.tokenStart
                 else start + utf8Len (text.take m.tokenStart)
    let e := if (' ' ∈ lemma_text)
             then some (if is_kfx then index + lemma_text.length
                        else index + utf8Len lemma_text)
             else none
    (index, e, m.data))

/-- Occurrence-index ids are all below a bound. -/
def occIdsLt (n : Nat) (m : List (String × List Occurrence)) : Prop :=
  ∀ p ∈ m, ∀ o ∈ p.2, ∀ i, o.ref = AnnRef.ent i → i < n

/-- Resolver invariant: dict keys distinct, the multiset of record ids is
exactly `{0, ..., entity_id - 1}`, and every recorded occurrence id is below
the counter. -/
def ResolverInv (s : XRayState) : Prop :=
  keysNodup s.entities
    ∧ (s.entities.map (fun p => p.2.id)).Perm (List.range s.entity_id)
    ∧ occIdsLt s.entity_id s.entity_occurrences

/-- Stronger invariant holding when no fuller-name promotion ever fires: the
record ids in table order are exactly `0, 1, ..., entity_id - 1`. -/
def OrderedInv (s : XRayState) : Prop :=
  keysNodup s.entities
    ∧ s.entities.map (fun p => p.2.id) = List.range s.entity_id

/-- Concrete environment for test runs: the scorer rates "John Smith" against
the canonical name "John" at 100 (the token-set ratio of a name and its
extension, per spec section 4.1), the threshold is the spec's default 90, and
`is_full_name` judges "John Smith" a fuller form of "John" (spec section 4.1:
same category, proper superset of the name). -/
def promoEnv : EpubEnv :=
  { scorer := fun q k => if q == "John Smith" && k == "John" then (100 : ℚ) else 0,
    fuzz_threshold := 90,
    is_full_name := fun mn _ e _ => mn == "John" && e == "John Smith",
    custom_x_ray := [],
    get_cache := fun _ => none,
    lemma_glosses := fun _ => ("", "", ""),
    cjk_langs := [] }

/-- State after one `add_entity` call created the record "John" with id 0. -/
def promoState : XRayState :=
  { entity_id := 1,
    entities := [("John", ⟨0, "PERSON", "q0", 1⟩)],
    entity_occurrences := [("part", [⟨0, 4, "John", AnnRef.ent 0⟩])],
    removed_entity_ids := [], lemmas := [], lemma_id := 0 }

/-- A fuzzy mention of "John Smith" that merges into the "John" record. -/
def promoCall : Call :=
  ⟨"John Smith", "PERSON", "q1", 10, 20, "part", "John Smith"⟩

/-- Three mentions: "John" (creates id 0), "Mary" (creates id 1),
"John Smith" (fuzzy-merges into id 0 and triggers fuller-name promotion). -/
def promoCalls : List Call :=
  [⟨"John", "PERSON", "q0", 0, 4, "part", "John"⟩,
   ⟨"Mary", "PERSON", "q1", 5, 9, "part", "Mary"⟩,
   ⟨"John Smith", "PERSON", "q2", 10, 20, "part", "John Smith"⟩]

/-- Environment with an empty description cache, no pinned entities and a
scorer that never reaches the threshold. -/
def pruneEnv : EpubEnv :=
  { scorer := fun _ _ => 0, fuzz_threshold := 90,
    is_full_name := fun _ _ _ _ => false,
    custom_x_ray := [], get_cache := fun _ => none,
    lemma_glosses := fun _ => ("", "", ""), cjk_langs := [] }

/-- Environment whose gloss cache returns a 20-character short gloss. -/
def glossLongEnv : EpubEnv :=
  { pruneEnv with lemma_glosses := fun _ => ("aaaaaaaaaaaaaaaaaaaa", "gloss", "") }

/-- Environment whose gloss cache returns a 5-character short gloss. -/
def glossShortEnv : EpubEnv :=
  { pruneEnv with lemma_glosses := fun _ => ("abcde", "gloss", "") }

/-- A state holding exactly one entity record "Foo" (id 0, count 1) with one
recorded occurrence. -/
def pruneState : XRayState :=
  { entity_id := 1,
    entities := [("Foo", ⟨0, "PERSON", "quote", 1⟩)],
    entity_occurrences := [("part", [⟨0, 3, "Foo", AnnRef.ent 0⟩])],
    removed_entity_ids := [], lemmas := [], lemma_id := 0 }

theorem lookupDict_eq_none_iff {α : Type} (l : List (String × α)) (k : String) :
    lookupDict l k = none ↔ ∀ p ∈ l, p.1 ≠ k := by
  induction l with
  | nil => simp [lookupDict]
  | cons p rest ih =>
    by_cases h : p.1 = k
    · simp [lookupDict, h]
    · simp [lookupDict, h, ih]

theorem lookupDict_absent {α : Type} {l : List (String × α)} {k : String}
    (h : ∀ p ∈ l, p.1 ≠ k) : lookupDict l k = none :=
  (lookupDict_eq_none_iff l k).2 h

theorem lookupDict_found {α : Type} (l₁ l₂ : List (String × α)) (k : String) (v : α)
    (h₁ : ∀ p ∈ l₁, p.1 ≠ k) : lookupDict (l₁ ++ (k, v) :: l₂) k = some v := by
  induction l₁ with
  | nil => simp [lookupDict]
  | cons p rest ih =>
    have hp : p.1 ≠ k := h₁ p (List.mem_cons_self p rest)
    simpa [lookupDict, hp] using ih (fun q hq => h₁ q (List.mem_cons_of_mem p hq))

theorem lookupDict_decomp {α : Type} {l : List (String × α)} {k : String} {v : α}
    (hnd : keysNodup l) (h : lookupDict l k = some v) :
    ∃ l₁ l₂, l = l₁ ++ (k, v) :: l₂ ∧ (∀ p ∈ l₁, p.1 ≠ k) ∧ (∀ p ∈ l₂, p.1 ≠ k) := by
  induction l with
  | nil => simp [lookupDict] at h
  | cons p rest ih =>
    rw [keysNodup, List.map_cons, List.nodup_cons] at hnd
    by_cases hk : p.1 = k
    · refine ⟨[], rest, ?_, by simp, ?_⟩
      · simp only [lookupDict, hk, beq_self_eq_true, if_true, Option.some.injEq] at h
        simp [← hk, ← h]
      · intro q hq hqk
        exact hnd.1 (by rw [hk, ← hqk]; exact List.mem_map.2 ⟨q, hq, rfl⟩)
    · simp only [lookupDict, beq_iff_eq, hk, if_false] at h
      obtain ⟨l₁, l₂, heq, h₁, h₂⟩ := ih hnd.2 h
      exact ⟨p :: l₁, l₂, by simp [heq], by
        intro q hq
        rcases List.mem_cons.1 hq with rfl | hq'
        · exact hk
        · exact h₁ q hq', h₂⟩

theorem lookupDict_of_mem {α : Type} {l : List (String × α)} {k : String} {v : α}
    (hnd : keysNodup l) (h : (k, v) ∈ l) : lookupDict l k = some v := by
  induction l with
  | nil => simp at h
  | cons p rest ih =>
    rw [keysNodup, List.map_cons, List.nodup_cons] at hnd
    rcases List.mem_cons.1 h with rfl | h'
    · simp [lookupDict]
    · have hp : p.1 ≠ k := by
        intro hpk
        exact hnd.1 (hpk ▸ (List.mem_map.2 ⟨(k, v), h', rfl⟩))
      simpa [lookupDict, hp] using ih hnd.2 h'

theorem dictSet_decomp {α : Type} (l₁ l₂ : List (String × α)) (k : String) (v w : α)
    (h₁ : ∀ p ∈ l₁, p.1 ≠ k) :
    dictSet (l₁ ++ (k, v) :: l₂) k w = l₁ ++ (k, w) :: l₂ := by
  induction l₁ with
  | nil => simp [dictSet]
  | cons p rest ih =>
    have hp : p.1 ≠ k := h₁ p (List.mem_cons_self p rest)
    simpa [dictSet, hp] using ih (fun q hq => h₁ q (List.mem_cons_of_mem p hq))

theorem dictSet_absent {α : Type} {l : List (String × α)} {k : String} (v : α)
    (h : ∀ p ∈ l, p.1 ≠ k) : dictSet l k v = l ++ [(k, v)] := by
  induction l with
  | nil => simp [dictSet]
  | cons p rest ih =>
    have hp : p.1 ≠ k := h p (List.mem_cons_self p rest)
    simpa [dictSet, hp] using ih (fun q hq => h q (List.mem_cons_of_mem p hq))

theorem eraseKey_decomp {α : Type} (l₁ l₂ : List (String × α)) (k : String) (v : α)
    (h₁ : ∀ p ∈ l₁, p.1 ≠ k) : eraseKey (l₁ ++ (k, v) :: l₂) k = l₁ ++ l₂ := by
  induction l₁ with
  | nil => simp [eraseKey]
  | cons p rest ih =>
    have hp : p.1 ≠ k := h₁ p (List.mem_cons_self p rest)
    simpa [eraseKey, hp] using ih (fun q hq => h₁ q (List.mem_cons_of_mem p hq))

theorem extractOne_mem {scorer : String → String → ℚ} {query : String}
    {choices : List (String × EntityData)} {cutoff : ℚ}
    {r : (String × EntityData) × ℚ}
    (h : extractOne scorer query choices cutoff = some r) : r.1 ∈ choices := by
  have main : ∀ (cs : List (String × EntityData))
      (best : Option ((String × EntityData) × ℚ)),
      extractOneLoop scorer query cutoff cs best = some r →
      best = some r ∨ r.1 ∈ cs := by
    intro cs
    induction cs with
    | nil => intro best h'; exact Or.inl h'
    | cons ch rest ih =>
      intro best h'
      simp only [extractOneLoop] at h'
      rcases ih _ h' with h2 | h2
      · cases best with
        | none =>
          dsimp only at h2
          by_cases hc : cutoff ≤ scorer query ch.1
          · rw [if_pos hc] at h2
            right
            have : r = (ch, scorer query ch.1) := (Option.some.inj h2).symm
            simp [this]
          · rw [if_neg hc] at h2
            exact absurd h2 (by simp)
        | some b =>
          dsimp only at h2
          by_cases hc : b.2 < scorer query ch.1
          · rw [if_pos hc] at h2
            right
            have : r = (ch, scorer query ch.1) := (Option.some.inj h2).symm
            simp [this]
          · rw [if_neg hc] at h2
            exact Or.inl h2
      · exact Or.inr (List.mem_cons_of_mem _ h2)
  rcases main choices none h with h' | h'
  · exact absurd h' (by simp)
  · exact h'

theorem lookupDict_append_self {α : Type} {l : List (String × α)} {k : String}
    (v : α) (h : lookupDict l k = none) : lookupDict (l ++ [(k, v)]) k = some v :=
  lookupDict_found l [] k v ((lookupDict_eq_none_iff l k).1 h)

theorem add_entity_core_frame (env : EpubEnv) (s : XRayState) (c : Call) :
    (add_entity_core env s c).1.entity_occurrences = s.entity_occurrences
    ∧ (add_entity_core env s c).1.removed_entity_ids = s.removed_entity_ids
    ∧ (add_entity_core env s c).1.lemmas = s.lemmas
    ∧ (add_entity_core env s c).1.lemma_id = s.lemma_id := by
  unfold add_entity_core
  cases lookupDict s.entities c.entity with
  | some d => exact ⟨rfl, rfl, rfl, rfl⟩
  | none =>
    cases (if c.entity ∈ env.custom_x_ray then none
           else extractOne env.scorer c.entity s.entities env.fuzz_threshold) with
    | some r => exact ⟨rfl, rfl, rfl, rfl⟩
    | none => exact ⟨rfl, rfl, rfl, rfl⟩

/-- C10: the entity id chosen by `add_entity` and written into the occurrence
tuple does not depend on the supplied NER label: two calls on the same state
that differ only in the label resolve to the same id and append identical
occurrence records (exact and fuzzy matching consult only the surface
strings; the label only enters the stored `label` field of a newly created
record and the `is_full_name` promotion decision, neither of which affects
the returned id), so a mention can be merged into a record whose label
differs. -/
theorem add_entity_label_independent (env : EpubEnv) (s : XRayState)
    (e l1 l2 q : String) (a b : Nat) (path orig : String) :
    (add_entity env s ⟨e, l1, q, a, b, path, orig⟩).2
        = (add_entity env s ⟨e, l2, q, a, b, path, orig⟩).2
    ∧ (add_entity env s ⟨e, l1, q, a, b, path, orig⟩).1.entity_occurrences
        = (add_entity env s ⟨e, l2, q, a, b, path, orig⟩).1.entity_occurrences := by
  have hid : (add_entity_core env s ⟨e, l1, q, a, b, path, orig⟩).2
      = (add_entity_core env s ⟨e, l2, q, a, b, path, orig⟩).2 := by
    simp only [add_entity_core]
    cases h : lookupDict s.entities e with
    | some d => rfl
    | none =>
      cases h2 : (if e ∈ env.custom_x_ray then none
                  else extractOne env.scorer e s.entities env.fuzz_threshold) with
      | some r => rfl
      | none => rfl
  have hf1 := add_entity_core_frame env s ⟨e, l1, q, a, b, path, orig⟩
  have hf2 := add_entity_core_frame env s ⟨e, l2, q, a, b, path, orig⟩
  constructor
  · simpa [add_entity] using hid
  · simp [add_entity, hf1.1, hf2.1, hid]

theorem add_lemma_found (s : XRayState) (w : String) (a b : Nat) (p o : String)
    (h : ¬ lookupDict s.lemmas w = none) :
    (add_lemma s w a b p o).lemmas = s.lemmas
    ∧ (add_lemma s w a b p o).lemma_id = s.lemma_id := by
  simp [add_lemma, h]

theorem add_lemma_new (s : XRayState) (w : String) (a b : Nat) (p o : String)
    (h : lookupDict s.lemmas w = none) :
    (add_lemma s w a b p o).lemmas = s.lemmas ++ [(w, s.lemma_id)]
    ∧ (add_lemma s w a b p o).lemma_id = s.lemma_id + 1 := by
  simp [add_lemma, h]

/-- C9: lemma registration is idempotent. A second `add_lemma` call with the
same lemma string leaves the lemma table and the lemma id counter unchanged
(no counter increment), the lemma resolves to the same id both times, and the
lemma is present in the table after the first call. -/
theorem add_lemma_idempotent (s : XRayState) (w : String) (a b : Nat) (p o : String)
    (a' b' : Nat) (p' o' : String) :
    (add_lemma (add_lemma s w a b p o) w a' b' p' o').lemmas
        = (add_lemma s w a b p o).lemmas
    ∧ (add_lemma (add_lemma s w a b p o) w a' b' p' o').lemma_id
        = (add_lemma s w a b p o).lemma_id
    ∧ lookupDict (add_lemma (add_lemma s w a b p o) w a' b' p' o').lemmas w
        = lookupDict (add_lemma s w a b p o).lemmas w
    ∧ (lookupDict (add_lemma s w a b p o).lemmas w).isSome = true := by
  by_cases h : lookupDict s.lemmas w = none
  · have hsome : lookupDict (add_lemma s w a b p o).lemmas w = some s.lemma_id := by
      rw [(add_lemma_new s w a b p o h).1]
      exact lookupDict_append_self _ h
    have h2 : ¬ lookupDict (add_lemma s w a b p o).lemmas w = none := by
      simp [hsome]
    obtain ⟨hl, hi⟩ := add_lemma_found (add_lemma s w a b p o) w a' b' p' o' h2
    exact ⟨hl, hi, by rw [hl], Option.isSome_iff_ne_none.2 h2⟩
  · have hp := add_lemma_found s w a b p o h
    have h2 : ¬ lookupDict (add_lemma s w a b p o).lemmas w = none := by
      rw [hp.1]; exact h
    obtain ⟨hl, hi⟩ := add_lemma_found (add_lemma s w a b p o) w a' b' p' o' h2
    exact ⟨hl, hi, by rw [hl], Option.isSome_iff_ne_none.2 h2⟩

/-- C8: splicing a document part with every span suppressed (in particular
with zero spans) is the identity on the text buffer: the loop never advances
the cursor or emits markup, and the final tail copy returns the whole
original buffer. -/
theorem insert_anchors_identity (removed : List Nat) (tag : Occurrence → List Char)
    (buf : List Char) (spans : List Occurrence)
    (hall : ∀ sp ∈ spans, isRemoved removed sp.ref = true) :
    insert_anchors removed tag buf spans = buf := by
  have hfold : spans.foldl
      (fun acc sp => if isRemoved removed sp.ref then acc else spliceStep tag buf acc sp)
      (([] : List Char), 0) = ([], 0) := by
    induction spans with
    | nil => rfl
    | cons sp rest ih =>
      rw [List.foldl_cons, if_pos (hall sp (List.mem_cons_self sp rest))]
      exact ih (fun x hx => hall x (List.mem_cons_of_mem sp hx))
  unfold insert_anchors
  rw [hfold]
  simp

/-- Witness for C8 at a concrete input: one span with suppressed entity id 0
over the buffer "hello" leaves the buffer unchanged. -/
theorem insert_anchors_identity_witness :
    insert_anchors [0] (fun _ => "T".data) "hello".data
      [⟨1, 3, "el", AnnRef.ent 0⟩] = "hello".data :=
  insert_anchors_identity [0] (fun _ => "T".data) "hello".data
    [⟨1, 3, "el", AnnRef.ent 0⟩] (by decide)

theorem slice_split {α : Type} (buf : List α) {a b c : Nat}
    (h1 : a ≤ b) (h2 : b ≤ c) :
    slice buf a c = slice buf a b ++ slice buf b c := by
  unfold slice
  have hc : c - a = (b - a) + (c - b) := by omega
  rw [hc, List.take_add]
  congr 2
  rw [List.drop_drop]
  congr 1
  omega

theorem drop_eq_slice {α : Type} (buf : List α) (a : Nat) :
    buf.drop a = slice buf a buf.length := by
  unfold slice
  exact (List.take_of_length_le (by simp)).symm

theorem isRemoved_nil (r : AnnRef) : isRemoved [] r = false := by
  cases r <;> rfl

theorem foldl_skip_removed (removed : List Nat) (tag : Occurrence → List Char)
    (buf : List Char) :
    ∀ (spans : List Occurrence) (init : List Char × Nat),
      spans.foldl
          (fun acc sp => if isRemoved removed sp.ref then acc
                         else spliceStep tag buf acc sp) init
        = (spans.filter (fun sp => ! isRemoved removed sp.ref)).foldl
            (spliceStep tag buf) init := by
  intro spans
  induction spans with
  | nil => intro init; rfl
  | cons sp rest ih =>
    intro init
    by_cases h : isRemoved removed sp.ref = true
    · rw [List.foldl_cons, if_pos h, List.filter_cons_of_neg (by simp [h])]
      exact ih init
    · have h' : isRemoved removed sp.ref = false := by
        revert h; cases isRemoved removed sp.ref <;> simp
      rw [List.foldl_cons, if_neg (by simp [h']), List.filter_cons_of_pos (by simp [h']),
        List.foldl_cons]
      exact ih _

theorem foldl_spliceStep_spec (tag : Occurrence → List Char) (buf : List Char) :
    ∀ (spans : List Occurrence) (acc : List Char) (le : Nat),
      (spans.foldl (spliceStep tag buf) (acc, le)).1
          ++ buf.drop (spans.foldl (spliceStep tag buf) (acc, le)).2
        = acc ++ spliceSpecFrom tag buf le spans := by
  intro spans
  induction spans with
  | nil => intro acc le; simp [spliceSpecFrom]
  | cons sp rest ih =>
    intro acc le
    rw [List.foldl_cons]
    have hstep : spliceStep tag buf (acc, le) sp
        = (acc ++ slice buf le sp.start ++ tag sp, sp.stop) := rfl
    rw [hstep, ih]
    simp [spliceSpecFrom, List.append_assoc]

theorem chainedB_le {le le' : Nat} {l : List Occurrence}
    (h : chainedB le' l = true) (hle : le ≤ le') : chainedB le l = true := by
  cases l with
  | nil => rfl
  | cons sp rest =>
    simp only [chainedB, Bool.and_eq_true, decide_eq_true_eq] at h ⊢
    exact ⟨⟨le_trans hle h.1.1, h.1.2⟩, h.2⟩

theorem chainedB_filter (p : Occurrence → Bool) :
    ∀ (l : List Occurrence) (le : Nat),
      chainedB le l = true → chainedB le (l.filter p) = true := by
  intro l
  induction l with
  | nil => intro le _; rfl
  | cons sp rest ih =>
    intro le h
    simp only [chainedB, Bool.and_eq_true, decide_eq_true_eq] at h
    by_cases hp : p sp = true
    · rw [List.filter_cons_of_pos hp]
      simp only [chainedB, Bool.and_eq_true, decide_eq_true_eq]
      exact ⟨⟨h.1.1, h.1.2⟩, ih sp.stop h.2⟩
    · rw [List.filter_cons_of_neg (by simpa using hp)]
      exact chainedB_le (ih sp.stop h.2) (le_trans h.1.1 h.1.2)

theorem suppressed_slice_infix (tag : Occurrence → List Char) (buf : List Char)
    (removed : List Nat) :
    ∀ (spans : List Occurrence) (le : Nat),
      chainedB le spans = true →
      (∀ sp ∈ spans, sp.stop ≤ buf.length) →
      ∀ sp ∈ spans, isRemoved removed sp.ref = true →
        ∃ pre post,
          spliceSpecFrom tag buf le
              (spans.filter (fun x => ! isRemoved removed x.ref))
            = pre ++ slice buf sp.start sp.stop ++ post := by
  intro spans
  induction spans with
  | nil => intro le _ _ sp hsp; simp at hsp
  | cons x rest ih =>
    intro le hch hend sp hsp hrem
    simp only [chainedB, Bool.and_eq_true, decide_eq_true_eq] at hch
    obtain ⟨⟨hle1, hle2⟩, hch'⟩ := hch
    rcases List.mem_cons.1 hsp with rfl | hsp'
    · rw [List.filter_cons_of_neg (by simp [hrem])]
      have hchf := chainedB_filter (fun x => ! isRemoved removed x.ref) rest sp.stop hch'
      have hstop : sp.stop ≤ buf.length := hend sp hsp
      cases hf : rest.filter (fun x => ! isRemoved removed x.ref) with
      | nil =>
        refine ⟨slice buf le sp.start, slice buf sp.stop buf.length, ?_⟩
        show buf.drop le = _
        rw [drop_eq_slice buf le, slice_split buf hle1 (le_trans hle2 hstop),
          slice_split buf hle2 hstop]
        simp [List.append_assoc]
      | cons y ys =>
        have hy : sp.stop ≤ y.start := by
          rw [hf] at hchf
          simp only [chainedB, Bool.and_eq_true, decide_eq_true_eq] at hchf
          exact hchf.1.1
        refine ⟨slice buf le sp.start,
          slice buf sp.stop y.start ++ tag y ++ spliceSpecFrom tag buf y.stop ys, ?_⟩
        show slice buf le y.start ++ tag y ++ spliceSpecFrom tag buf y.stop ys = _
        rw [slice_split buf hle1 (le_trans hle2 hy), slice_split buf hle2 hy]
        simp [List.append_assoc]
    · by_cases hx : isRemoved removed x.ref = true
      · rw [List.filter_cons_of_neg (by simp [hx])]
        exact ih le (chainedB_le hch' (le_trans hle1 hle2))
          (fun q hq => hend q (List.mem_cons_of_mem x hq)) sp hsp' hrem
      · have hx' : isRemoved removed x.ref = false := by
          revert hx; cases isRemoved removed x.ref <;> simp
        rw [List.filter_cons_of_pos (by simp [hx'])]
        obtain ⟨pre, post, heq⟩ := ih x.stop hch'
          (fun q hq => hend q (List.mem_cons_of_mem x hq)) sp hsp' hrem
        refine ⟨slice buf le x.start ++ tag x ++ pre, post, ?_⟩
        show slice buf le x.start ++ tag x ++ spliceSpecFrom tag buf x.stop _ = _
        rw [heq]
        simp [List.append_assoc]

/-- C4: for a span list sorted ascending by start and pairwise non-overlapping
(the splicing precondition of spec sections 3 and 4.4, `chainedB`), the splice
loop emits no markup for suppressed spans — the output equals the spec-shaped
splice of the non-suppressed spans alone, so every untouched region between
surviving spans is copied verbatim and every surviving span is wrapped — and
each suppressed span's original text survives byte-for-byte as a contiguous
slice of the output, because the cursor is not advanced past a suppressed span
and the next copy step re-includes its text. -/
theorem insert_anchors_suppressed (removed : List Nat) (tag : Occurrence → List Char)
    (buf : List Char) (spans : List Occurrence)
    (hch : chainedB 0 spans = true)
    (hend : ∀ sp ∈ spans, sp.stop ≤ buf.length) :
    insert_anchors removed tag buf spans
        = spliceSpecFrom tag buf 0 (spans.filter (fun sp => ! isRemoved removed sp.ref))
    ∧ ∀ sp ∈ spans, isRemoved removed sp.ref = true →
        ∃ pre post, insert_anchors removed tag buf spans
            = pre ++ slice buf sp.start sp.stop ++ post := by
  have ha : insert_anchors removed tag buf spans
      = spliceSpecFrom tag buf 0 (spans.filter (fun sp => ! isRemoved removed sp.ref)) := by
    unfold insert_anchors
    rw [foldl_skip_removed]
    simpa using foldl_spliceStep_spec tag buf
      (spans.filter (fun sp => ! isRemoved removed sp.ref)) [] 0
  refine ⟨ha, ?_⟩
  intro sp hsp hrem
  obtain ⟨pre, post, h⟩ :=
    suppressed_slice_infix tag buf removed spans 0 hch hend sp hsp hrem
  exact ⟨pre, post, by rw [ha, h]⟩

/-- Witness for C4 at a concrete input: spans at 1-2 (suppressed id 0) and
3-4 (id 1) over "abcde"; the suppressed slice "b" survives in the output. -/
theorem insert_anchors_suppressed_witness :
    ∃ pre post,
      insert_anchors [0] (fun sp => sp.display.data) "abcde".data
          [⟨1, 2, "X", AnnRef.ent 0⟩, ⟨3, 4, "Y", AnnRef.ent 1⟩]
        = pre ++ slice "abcde".data 1 2 ++ post :=
  (insert_anchors_suppressed [0] (fun sp => sp.display.data) "abcde".data
      [⟨1, 2, "X", AnnRef.ent 0⟩, ⟨3, 4, "Y", AnnRef.ent 1⟩]
      (by decide) (by decide)).2
    ⟨1, 2, "X", AnnRef.ent 0⟩ (by decide) (by decide)

/-- C1: when `add_entity` is called with a surface string that has no exact
match, is not pinned in the custom X-Ray table, and whose fuzzy token-set
similarity against an existing canonical name is accepted by `extractOne`
(score at or above the threshold), the call returns the matched record's id,
the matched record's count increases by exactly 1, and no new id is consumed;
moreover if `is_full_name` judges the new surface text a fuller form of the
name, the canonical key is replaced by the new surface text while the record
(id, accumulated count, quote, label) is retained unchanged, and otherwise
the canonical key stays and the new surface text is not added as a key. -/
theorem add_entity_fuzzy_merge (env : EpubEnv) (s : XRayState) (c : Call)
    (matched_name : String) (matched_entity : EntityData) (score : ℚ)
    (hnd : keysNodup s.entities)
    (hexact : lookupDict s.entities c.entity = none)
    (hcustom : c.entity ∉ env.custom_x_ray)
    (hfuzzy : extractOne env.scorer c.entity s.entities env.fuzz_threshold
      = some ((matched_name, matched_entity), score)) :
    (add_entity env s c).2 = matched_entity.id
    ∧ (add_entity env s c).1.entity_id = s.entity_id
    ∧ (env.is_full_name matched_name matched_entity.label c.entity c.ner_label = true →
        lookupDict (add_entity env s c).1.entities c.entity
            = some { matched_entity with count := matched_entity.count + 1 }
        ∧ lookupDict (add_entity env s c).1.entities matched_name = none)
    ∧ (env.is_full_name matched_name matched_entity.label c.entity c.ner_label = false →
        lookupDict (add_entity env s c).1.entities matched_name
            = some { matched_entity with count := matched_entity.count + 1 }
        ∧ lookupDict (add_entity env s c).1.entities c.entity = none) := by
  have hmem : (matched_name, matched_entity) ∈ s.entities := by
    simpa using extractOne_mem hfuzzy
  have hlook : lookupDict s.entities matched_name = some matched_entity :=
    lookupDict_of_mem hnd hmem
  obtain ⟨l₁, l₂, heq, h₁, h₂⟩ := lookupDict_decomp hnd hlook
  have he_keys : ∀ p ∈ s.entities, p.1 ≠ c.entity :=
    (lookupDict_eq_none_iff s.entities c.entity).1 hexact
  have hmn_ne : matched_name ≠ c.entity := he_keys (matched_name, matched_entity) hmem
  set d2 : EntityData := { matched_entity with count := matched_entity.count + 1 }
    with hd2
  have hcore : add_entity_core env s c
      = ({ s with entities :=
            (if env.is_full_name matched_name matched_entity.label c.entity c.ner_label
             then eraseKey (dictSet (dictSet s.entities matched_name d2) c.entity d2)
                    matched_name
             else dictSet s.entities matched_name d2) },
          matched_entity.id) := by
    simp only [add_entity_core, hexact, if_neg hcustom, hfuzzy]
  have hents1 : dictSet s.entities matched_name d2
      = l₁ ++ (matched_name, d2) :: l₂ := by
    rw [heq]; exact dictSet_decomp l₁ l₂ matched_name matched_entity d2 h₁
  have hne : ∀ p ∈ l₁ ++ (matched_name, d2) :: l₂, p.1 ≠ c.entity := by
    intro p hp
    rcases List.mem_append.1 hp with hp1 | hp2
    · exact he_keys p (by rw [heq]; exact List.mem_append_left _ hp1)
    · rcases List.mem_cons.1 hp2 with rfl | hp3
      · exact hmn_ne
      · exact he_keys p
          (by rw [heq]; exact List.mem_append_right _ (List.mem_cons_of_mem _ hp3))
  have h2eq : (add_entity env s c).2 = (add_entity_core env s c).2 := rfl
  have hentseq : (add_entity env s c).1.entities
      = (add_entity_core env s c).1.entities := rfl
  have hideq : (add_entity env s c).1.entity_id
      = (add_entity_core env s c).1.entity_id := rfl
  refine ⟨?_, ?_, ?_, ?_⟩
  · rw [h2eq, hcore]
  · rw [hideq, hcore]
  · intro hpromo
    rw [hentseq, hcore]
    simp only [hpromo, if_true]
    rw [hents1, dictSet_absent d2 hne]
    have hassoc : (l₁ ++ (matched_name, d2) :: l₂) ++ [(c.entity, d2)]
        = l₁ ++ (matched_name, d2) :: (l₂ ++ [(c.entity, d2)]) := by simp
    rw [hassoc, eraseKey_decomp l₁ (l₂ ++ [(c.entity, d2)]) matched_name d2 h₁]
    constructor
    · have hassoc2 : l₁ ++ (l₂ ++ [(c.entity, d2)])
          = (l₁ ++ l₂) ++ (c.entity, d2) :: [] := by simp
      rw [hassoc2]
      refine lookupDict_found (l₁ ++ l₂) [] c.entity d2 ?_
      intro p hp
      rcases List.mem_append.1 hp with hp1 | hp2
      · exact he_keys p (by rw [heq]; exact List.mem_append_left _ hp1)
      · exact he_keys p
          (by rw [heq]; exact List.mem_append_right _ (List.mem_cons_of_mem _ hp2))
    · apply lookupDict_absent
      intro p hp
      rcases List.mem_append.1 hp with hp1 | hp2
      · exact h₁ p hp1
      · rcases List.mem_append.1 hp2 with hp3 | hp4
        · exact h₂ p hp3
        · have hp5 : p = (c.entity, d2) := by simpa using hp4
          rw [hp5]
          exact fun hk => hmn_ne hk.symm
  · intro hpromo
    rw [hentseq, hcore]
    simp only [hpromo, Bool.false_eq_true, if_false]
    rw [hents1]
    exact ⟨lookupDict_found l₁ l₂ matched_name d2 h₁, lookupDict_absent hne⟩

/-- Witness for C1: in `promoState` (one record "John", id 0, count 1), the
call `promoCall` ("John Smith") fuzzy-merges into the record, returns id 0,
keeps the counter at 1, and promotion re-keys the record to "John Smith"
with count 2 and the original quote. -/
theorem add_entity_fuzzy_merge_witness :
    (add_entity promoEnv promoState promoCall).2 = 0
    ∧ (add_entity promoEnv promoState promoCall).1.entity_id = 1
    ∧ lookupDict (add_entity promoEnv promoState promoCall).1.entities "John Smith"
        = some ⟨0, "PERSON", "q0", 2⟩
    ∧ lookupDict (add_entity promoEnv promoState promoCall).1.entities "John"
        = none := by
  have h := add_entity_fuzzy_merge promoEnv promoState promoCall "John"
    ⟨0, "PERSON", "q0", 1⟩ 100 (by decide) (by decide) (by decide) (by decide)
  have hpromo : promoEnv.is_full_name "John" "PERSON" "John Smith" "PERSON" = true := by
    decide
  exact ⟨h.1, h.2.1, (h.2.2.1 hpromo).1, (h.2.2.1 hpromo).2⟩

theorem eraseKey_eq_filter {α : Type} {l : List (String × α)} {k : String}
    (hnd : keysNodup l) : eraseKey l k = l.filter (fun q => ! (q.1 == k)) := by
  induction l with
  | nil => rfl
  | cons p rest ih =>
    rw [keysNodup, List.map_cons, List.nodup_cons] at hnd
    by_cases hk : p.1 = k
    · rw [List.filter_cons_of_neg (by simp [hk])]
      have hall : rest.filter (fun q => ! (q.1 == k)) = rest := by
        rw [List.filter_eq_self]
        intro q hq
        have : q.1 ≠ k := by
          intro hqk
          exact hnd.1 (by rw [hk, ← hqk]; exact List.mem_map.2 ⟨q, hq, rfl⟩)
        simp [this]
      simp [eraseKey, hk, hall]
    · rw [List.filter_cons_of_pos (by simp [hk])]
      simp [eraseKey, hk, ih hnd.2]

theorem eraseKey_subset {α : Type} {l : List (String × α)} {k : String} :
    ∀ q ∈ eraseKey l k, q ∈ l := by
  induction l with
  | nil => intro q hq; simp [eraseKey] at hq
  | cons p rest ih =>
    intro q hq
    by_cases hk : p.1 = k
    · simp only [eraseKey, hk, beq_self_eq_true, if_true] at hq
      exact List.mem_cons_of_mem p hq
    · simp only [eraseKey, beq_iff_eq, hk, if_false] at hq
      rcases List.mem_cons.1 hq with rfl | hq'
      · exact List.mem_cons_self q rest
      · exact List.mem_cons_of_mem p (ih q hq')

theorem keysNodup_eraseKey {α : Type} {l : List (String × α)} {k : String}
    (hnd : keysNodup l) : keysNodup (eraseKey l k) := by
  induction l with
  | nil => exact hnd
  | cons p rest ih =>
    rw [keysNodup, List.map_cons, List.nodup_cons] at hnd
    by_cases hk : p.1 = k
    · simpa [eraseKey, hk] using hnd.2
    · rw [keysNodup]
      simp only [eraseKey, beq_iff_eq, hk, if_false, List.map_cons, List.nodup_cons]
      refine ⟨?_, ih hnd.2⟩
      intro hmem
      obtain ⟨q, hq, hqk⟩ := List.mem_map.1 hmem
      exact hnd.1 (List.mem_map.2 ⟨q, eraseKey_subset q hq, hqk⟩)

theorem key_unique {α : Type} {l : List (String × α)} (hnd : keysNodup l)
    {p q : String × α} (hp : p ∈ l) (hq : q ∈ l) (hk : p.1 = q.1) : p = q := by
  induction l with
  | nil => simp at hp
  | cons x rest ih =>
    rw [keysNodup, List.map_cons, List.nodup_cons] at hnd
    rcases List.mem_cons.1 hp with rfl | hp'
    · rcases List.mem_cons.1 hq with rfl | hq'
      · rfl
      · exact absurd (List.mem_map.2 ⟨q, hq', hk.symm⟩) hnd.1
    · rcases List.mem_cons.1 hq with rfl | hq'
      · exact absurd (List.mem_map.2 ⟨p, hp', hk⟩) hnd.1
      · exact ih hnd.2 hp' hq'

theorem prune_loop (env : EpubEnv) (m : Nat) :
    ∀ (todo : List (String × EntityData)) (st : XRayState),
      keysNodup st.entities →
      (todo.foldl (pruneStep env m) st).entities
          = st.entities.filter
              (fun q => ! todo.any
                (fun p => p.1 == q.1 && decide (suppressCond env m p)))
      ∧ (todo.foldl (pruneStep env m) st).removed_entity_ids
          = st.removed_entity_ids
              ++ (todo.filter (fun p => decide (suppressCond env m p))).map
                  (fun p => p.2.id)
      ∧ (todo.foldl (pruneStep env m) st).entity_id = st.entity_id
      ∧ (todo.foldl (pruneStep env m) st).entity_occurrences
          = st.entity_occurrences := by
  intro todo
  induction todo with
  | nil =>
    intro st _
    refine ⟨?_, by simp, rfl, rfl⟩
    simp [List.filter_eq_self]
  | cons p todo' ih =>
    intro st hnd
    by_cases hs : suppressCond env m p
    · have hstep : pruneStep env m st p
          = { st with entities := eraseKey st.entities p.1,
                      removed_entity_ids := st.removed_entity_ids ++ [p.2.id] } := by
        simp [pruneStep, hs]
      have hnd' : keysNodup (eraseKey st.entities p.1) := keysNodup_eraseKey hnd
      obtain ⟨ihe, ihr, ihi, iho⟩ := ih (pruneStep env m st p) (by rw [hstep]; exact hnd')
      refine ⟨?_, ?_, ?_, ?_⟩
      · rw [List.foldl_cons, ihe, hstep]
        show (eraseKey st.entities p.1).filter _ = _
        rw [eraseKey_eq_filter hnd, List.filter_filter]
        refine List.filter_congr ?_
        intro q hq
        simp only [List.any_cons, decide_eq_true hs, Bool.and_true, Bool.not_or]
        by_cases hqp : q.1 = p.1
        · simp [hqp]
        · have h1 : (q.1 == p.1) = false := by simp [hqp]
          have h2 : (p.1 == q.1) = false := by simp [Ne.symm hqp]
          simp [h1, h2]
      · rw [List.foldl_cons, ihr, hstep, List.filter_cons_of_pos (by simp [hs])]
        simp
      · rw [List.foldl_cons, ihi, hstep]
      · rw [List.foldl_cons, iho, hstep]
    · have hstep : pruneStep env m st p = st := by simp [pruneStep, hs]
      obtain ⟨ihe, ihr, ihi, iho⟩ := ih (pruneStep env m st p) (by rw [hstep]; exact hnd)
      refine ⟨?_, ?_, ?_, ?_⟩
      · rw [List.foldl_cons, ihe, hstep]
        refine List.filter_congr ?_
        intro q hq
        simp [List.any_cons, hs]
      · rw [List.foldl_cons, ihr, hstep, List.filter_cons_of_neg (by simp [hs])]
      · rw [List.foldl_cons, ihi, hstep]
      · rw [List.foldl_cons, iho, hstep]

/-- Counterexample to C3 as stated: pruning `pruneState` (one record "Foo",
id 0, count 1, no cached description, not pinned) with minimumCount 2 deletes
the record OUTRIGHT from `self.entities` — the very table that
`create_x_ray_footnotes` iterates for footnote numbering, so its footnote id
sequence becomes empty — rather than keeping the record and merely marking it
in a suppression set; only the bare id survives, in `removed_entity_ids`. -/
theorem remove_entities_deletes_record :
    (remove_entities pruneEnv 2 pruneState).entities = []
    ∧ lookupDict (remove_entities pruneEnv 2 pruneState).entities "Foo" = none
    ∧ x_ray_footnote_ids (remove_entities pruneEnv 2 pruneState) = []
    ∧ (remove_entities pruneEnv 2 pruneState).removed_entity_ids = [0] := by
  refine ⟨?_, ?_, ?_, ?_⟩ <;> rfl

/-- C3 amended: pruning suppresses exactly the records with
`count < minimumCount` that are not caller-pinned and have no cached external
description; each suppressed record IS deleted from the entity table (so the
footnote builder skips it by absence), its id is appended to
`removed_entity_ids` (so the splicer skips its occurrences), and the id
counter and the occurrence index are left unchanged (ids are never reused). -/
theorem remove_entities_spec (env : EpubEnv) (m : Nat) (s : XRayState)
    (hnd : keysNodup s.entities) :
    (remove_entities env m s).entities
        = s.entities.filter (fun p => ! decide (suppressCond env m p))
    ∧ (remove_entities env m s).removed_entity_ids
        = s.removed_entity_ids
            ++ (s.entities.filter (fun p => decide (suppressCond env m p))).map
                (fun p => p.2.id)
    ∧ (remove_entities env m s).entity_id = s.entity_id
    ∧ (remove_entities env m s).entity_occurrences = s.entity_occurrences := by
  obtain ⟨he, hr, hi, ho⟩ := prune_loop env m s.entities s hnd
  refine ⟨?_, hr, hi, ho⟩
  rw [remove_entities, he]
  refine List.filter_congr ?_
  intro q hq
  by_cases hsq : suppressCond env m q
  · have : s.entities.any (fun p => p.1 == q.1 && decide (suppressCond env m p))
        = true :=
      List.any_eq_true.2 ⟨q, hq, by simp [hsq]⟩
    simp [this, hsq]
  · have : s.entities.any (fun p => p.1 == q.1 && decide (suppressCond env m p))
        = false := by
      rw [List.any_eq_false]
      intro p hp
      simp only [Bool.and_eq_true, beq_iff_eq, decide_eq_true_eq, not_and]
      intro hpq hsp
      exact hsq ((key_unique hnd hp hq hpq) ▸ hsp)
    simp [this, hsq]

/-- Witness for the amended C3 at a concrete input. -/
theorem remove_entities_spec_witness :
    (remove_entities pruneEnv 2 pruneState).entities
        = pruneState.entities.filter (fun p => ! decide (suppressCond pruneEnv 2 p))
    ∧ (remove_entities pruneEnv 2 pruneState).removed_entity_ids
        = pruneState.removed_entity_ids
            ++ (pruneState.entities.filter
                (fun p => decide (suppressCond pruneEnv 2 p))).map (fun p => p.2.id)
    ∧ (remove_entities pruneEnv 2 pruneState).entity_id = pruneState.entity_id
    ∧ (remove_entities pruneEnv 2 pruneState).entity_occurrences
        = pruneState.entity_occurrences :=
  remove_entities_spec pruneEnv 2 pruneState (by decide)

theorem occIdsLt_mono {n n' : Nat} (hnn : n ≤ n') {m : List (String × List Occurrence)}
    (h : occIdsLt n m) : occIdsLt n' m :=
  fun p hp o ho i hi => lt_of_lt_of_le (h p hp o ho i hi) hnn

theorem occIdsLt_appendOcc {n : Nat} {m : List (String × List Occurrence)}
    (h : occIdsLt n m) {k : String} {v : Occurrence}
    (hv : ∀ i, v.ref = AnnRef.ent i → i < n) : occIdsLt n (appendOcc m k v) := by
  induction m with
  | nil =>
    intro p hp o ho i hi
    have hp' : p = (k, [v]) := by simpa [appendOcc] using hp
    subst hp'
    have ho' : o = v := by simpa using ho
    exact hv i (ho' ▸ hi)
  | cons q rest ih =>
    intro p hp o ho i hi
    by_cases hk : q.1 = k
    · simp only [appendOcc, hk, beq_self_eq_true, if_true] at hp
      rcases List.mem_cons.1 hp with rfl | hp'
      · rcases List.mem_append.1 ho with ho1 | ho2
        · exact h q (List.mem_cons_self _ _) o ho1 i hi
        · have ho' : o = v := by simpa using ho2
          exact hv i (ho' ▸ hi)
      · exact h p (List.mem_cons_of_mem _ hp') o ho i hi
    · simp only [appendOcc, beq_iff_eq, hk, if_false] at hp
      rcases List.mem_cons.1 hp with rfl | hp'
      · exact h p (List.mem_cons_self _ _) o ho i hi
      · exact ih (fun a ha b hb j hj => h a (List.mem_cons_of_mem _ ha) b hb j hj)
          p hp' o ho i hi

theorem add_entity_core_step (env : EpubEnv) (s : XRayState) (c : Call)
    (hnd : keysNodup s.entities)
    (hperm : (s.entities.map (fun p => p.2.id)).Perm (List.range s.entity_id)) :
    keysNodup (add_entity_core env s c).1.entities
    ∧ ((add_entity_core env s c).1.entities.map (fun p => p.2.id)).Perm
        (List.range (add_entity_core env s c).1.entity_id)
    ∧ (((add_entity_core env s c).1.entity_id = s.entity_id
          ∧ (add_entity_core env s c).2 < s.entity_id)
       ∨ ((add_entity_core env s c).1.entity_id = s.entity_id + 1
          ∧ (add_entity_core env s c).2 = s.entity_id)) := by
  cases hx : lookupDict s.entities c.entity with
  | some d =>
    obtain ⟨l₁, l₂, heq, h₁, h₂⟩ := lookupDict_decomp hnd hx
    have hcore : add_entity_core env s c
        = ({ s with entities := (dictSet s.entities c.entity
              { d with count := d.count + 1 }) }, d.id) := by
      simp only [add_entity_core, hx]
    have hset : dictSet s.entities c.entity { d with count := d.count + 1 }
        = l₁ ++ (c.entity, { d with count := d.count + 1 }) :: l₂ := by
      rw [heq]; exact dictSet_decomp l₁ l₂ c.entity d _ h₁
    have hkeys : (l₁ ++ (c.entity, { d with count := d.count + 1 }) :: l₂).map
          (fun p => p.1) = s.entities.map (fun p => p.1) := by
      rw [heq]; simp
    have hids : (l₁ ++ (c.entity, { d with count := d.count + 1 }) :: l₂).map
          (fun p => p.2.id) = s.entities.map (fun p => p.2.id) := by
      rw [heq]; simp
    have hdid : d.id < s.entity_id := by
      have hmem : d.id ∈ s.entities.map (fun p => p.2.id) :=
        List.mem_map.2 ⟨(c.entity, d), by rw [heq]; simp, rfl⟩
      exact List.mem_range.1 (hperm.mem_iff.1 hmem)
    rw [hcore]
    refine ⟨?_, ?_, Or.inl ⟨rfl, hdid⟩⟩
    · show keysNodup (dictSet s.entities c.entity { d with count := d.count + 1 })
      rw [keysNodup, hset, hkeys]
      exact hnd
    · show ((dictSet s.entities c.entity { d with count := d.count + 1 }).map
          (fun p => p.2.id)).Perm (List.range s.entity_id)
      rw [hset, hids]
      exact hperm
  | none =>
    cases hy : (if c.entity ∈ env.custom_x_ray then none
                else extractOne env.scorer c.entity s.entities env.fuzz_threshold) with
    | some r =>
      have hfz : extractOne env.scorer c.entity s.entities env.fuzz_threshold
          = some r := by
        by_cases hcust : c.entity ∈ env.custom_x_ray
        · rw [if_pos hcust] at hy; cases hy
        · rw [if_neg hcust] at hy; exact hy
      have hmem : r.1 ∈ s.entities := extractOne_mem hfz
      have hlook : lookupDict s.entities r.1.1 = some r.1.2 :=
        lookupDict_of_mem hnd hmem
      obtain ⟨l₁, l₂, heq, h₁, h₂⟩ := lookupDict_decomp hnd hlook
      have he_keys : ∀ p ∈ s.entities, p.1 ≠ c.entity :=
        (lookupDict_eq_none_iff _ _).1 hx
      have hmn_ne : r.1.1 ≠ c.entity := he_keys r.1 hmem
      have hrid : r.1.2.id < s.entity_id := by
        have hm : r.1.2.id ∈ s.entities.map (fun p => p.2.id) :=
          List.mem_map.2 ⟨r.1, hmem, rfl⟩
        exact List.mem_range.1 (hperm.mem_iff.1 hm)
      have hcore : add_entity_core env s c = ({ s with entities :=
            (if env.is_full_name r.1.1 r.1.2.label c.entity c.ner_label
             then eraseKey (dictSet (dictSet s.entities r.1.1
                    { r.1.2 with count := r.1.2.count + 1 }) c.entity
                    { r.1.2 with count := r.1.2.count + 1 }) r.1.1
             else dictSet s.entities r.1.1
                    { r.1.2 with count := r.1.2.count + 1 }) },
          r.1.2.id) := by
        simp only [add_entity_core, hx, hy]
      have hset : dictSet s.entities r.1.1 { r.1.2 with count := r.1.2.count + 1 }
          = l₁ ++ (r.1.1, { r.1.2 with count := r.1.2.count + 1 }) :: l₂ := by
        rw [heq]; exact dictSet_decomp l₁ l₂ _ _ _ h₁
      rw [hcore]
      by_cases hpromo : env.is_full_name r.1.1 r.1.2.label c.entity c.ner_label = true
      · rw [if_pos hpromo]
        have hne : ∀ p ∈ l₁ ++ (r.1.1, { r.1.2 with count := r.1.2.count + 1 }) :: l₂,
            p.1 ≠ c.entity := by
          intro p hp
          rcases List.mem_append.1 hp with hp1 | hp2
          · exact he_keys p (by rw [heq]; exact List.mem_append_left _ hp1)
          · rcases List.mem_cons.1 hp2 with rfl | hp3
            · exact hmn_ne
            · refine he_keys p ?_
              rw [heq]
              exact List.mem_append_right _ (List.mem_cons_of_mem _ hp3)
        have hset2 : dictSet (l₁ ++ (r.1.1, { r.1.2 with count := r.1.2.count + 1 }) :: l₂)
              c.entity { r.1.2 with count := r.1.2.count + 1 }
            = l₁ ++ (r.1.1, { r.1.2 with count := r.1.2.count + 1 })
                :: (l₂ ++ [(c.entity, { r.1.2 with count := r.1.2.count + 1 })]) := by
          rw [dictSet_absent _ hne]; simp
        have herase : eraseKey (l₁ ++ (r.1.1, { r.1.2 with count := r.1.2.count + 1 })
              :: (l₂ ++ [(c.entity, { r.1.2 with count := r.1.2.count + 1 })])) r.1.1
            = l₁ ++ (l₂ ++ [(c.entity, { r.1.2 with count := r.1.2.count + 1 })]) :=
          eraseKey_decomp l₁ _ _ _ h₁
        have hnd2 : (l₁.map (fun p => p.1) ++ r.1.1 :: l₂.map (fun p => p.1)).Nodup := by
          have hh := hnd
          rw [keysNodup, heq] at hh
          simpa using hh
        rw [List.nodup_middle, List.nodup_cons] at hnd2
        refine ⟨?_, ?_, Or.inl ⟨rfl, hrid⟩⟩
        · show keysNodup (eraseKey (dictSet (dictSet s.entities r.1.1
              { r.1.2 with count := r.1.2.count + 1 }) c.entity
              { r.1.2 with count := r.1.2.count + 1 }) r.1.1)
          rw [keysNodup, hset, hset2, herase]
          simp only [List.map_append, List.map_cons, List.map_nil]
          rw [← List.append_assoc, List.nodup_middle, List.nodup_cons]
          refine ⟨?_, by simpa using hnd2.2⟩
          intro hce
          rw [List.append_nil, ← List.map_append] at hce
          obtain ⟨p, hp, hpk⟩ := List.mem_map.1 hce
          refine he_keys p ?_ hpk
          rw [heq]
          rcases List.mem_append.1 hp with hp1 | hp2
          · exact List.mem_append_left _ hp1
          · exact List.mem_append_right _ (List.mem_cons_of_mem _ hp2)
        · show ((eraseKey (dictSet (dictSet s.entities r.1.1
              { r.1.2 with count := r.1.2.count + 1 }) c.entity
              { r.1.2 with count := r.1.2.count + 1 }) r.1.1).map
                (fun p => p.2.id)).Perm (List.range s.entity_id)
          rw [hset, hset2, herase]
          simp only [List.map_append, List.map_cons, List.map_nil]
          have hperm2 := hperm
          rw [heq] at hperm2
          simp only [List.map_append, List.map_cons] at hperm2
          exact (List.Perm.append_left _ List.perm_append_comm).trans hperm2
      · rw [if_neg hpromo]
        have hkeys : (l₁ ++ (r.1.1, { r.1.2 with count := r.1.2.count + 1 }) :: l₂).map
              (fun p => p.1) = s.entities.map (fun p => p.1) := by
          rw [heq]; simp
        have hids : (l₁ ++ (r.1.1, { r.1.2 with count := r.1.2.count + 1 }) :: l₂).map
              (fun p => p.2.id) = s.entities.map (fun p => p.2.id) := by
          rw [heq]; simp
        refine ⟨?_, ?_, Or.inl ⟨rfl, hrid⟩⟩
        · show keysNodup (dictSet s.entities r.1.1
              { r.1.2 with count := r.1.2.count + 1 })
          rw [keysNodup, hset, hkeys]
          exact hnd
        · show ((dictSet s.entities r.1.1
              { r.1.2 with count := r.1.2.count + 1 }).map (fun p => p.2.id)).Perm
              (List.range s.entity_id)
          rw [hset, hids]
          exact hperm
    | none =>
      have he_keys : ∀ p ∈ s.entities, p.1 ≠ c.entity :=
        (lookupDict_eq_none_iff _ _).1 hx
      have hcore : add_entity_core env s c = ({ s with
            entities := (dictSet s.entities c.entity
              ⟨s.entity_id, c.ner_label, c.book_quote, 1⟩),
            entity_id := s.entity_id + 1 }, s.entity_id) := by
        simp only [add_entity_core, hx, hy]
      have hset : dictSet s.entities c.entity ⟨s.entity_id, c.ner_label, c.book_quote, 1⟩
          = s.entities ++ [(c.entity, ⟨s.entity_id, c.ner_label, c.book_quote, 1⟩)] :=
        dictSet_absent _ he_keys
      rw [hcore]
      refine ⟨?_, ?_, Or.inr ⟨rfl, rfl⟩⟩
      · show keysNodup (dictSet s.entities c.entity
            ⟨s.entity_id, c.ner_label, c.book_quote, 1⟩)
        rw [keysNodup, hset]
        simp only [List.map_append, List.map_cons, List.map_nil]
        rw [List.nodup_middle, List.nodup_cons]
        refine ⟨?_, by simpa using hnd⟩
        intro hce
        rw [List.append_nil] at hce
        obtain ⟨p, hp, hpk⟩ := List.mem_map.1 hce
        exact he_keys p hp hpk
      · show ((dictSet s.entities c.entity
            ⟨s.entity_id, c.ner_label, c.book_quote, 1⟩).map (fun p => p.2.id)).Perm
            (List.range (s.entity_id + 1))
        rw [hset]
        simp only [List.map_append, List.map_cons, List.map_nil]
        have hr : List.range (s.entity_id + 1)
            = List.range s.entity_id ++ [s.entity_id] := by
          simp [List.range_succ]
        rw [hr]
        exact hperm.append (List.Perm.refl _)

theorem add_entity_step (env : EpubEnv) (s : XRayState) (c : Call)
    (h : ResolverInv s) :
    ResolverInv (add_entity env s c).1
    ∧ (((add_entity env s c).1.entity_id = s.entity_id
          ∧ (add_entity env s c).2 < s.entity_id)
       ∨ ((add_entity env s c).1.entity_id = s.entity_id + 1
          ∧ (add_entity env s c).2 = s.entity_id)) := by
  obtain ⟨hnd, hperm, hocc⟩ := h
  obtain ⟨hnd', hperm', hdisj⟩ := add_entity_core_step env s c hnd hperm
  have hframe := add_entity_core_frame env s c
  have hents : (add_entity env s c).1.entities = (add_entity_core env s c).1.entities :=
    rfl
  have hid : (add_entity env s c).1.entity_id = (add_entity_core env s c).1.entity_id :=
    rfl
  have h2 : (add_entity env s c).2 = (add_entity_core env s c).2 := rfl
  have hoccs : (add_entity env s c).1.entity_occurrences
      = appendOcc s.entity_occurrences c.xhtml_path
          ⟨c.start, c.stop, c.origin_entity, AnnRef.ent (add_entity_core env s c).2⟩ := by
    show appendOcc (add_entity_core env s c).1.entity_occurrences _ _ = _
    rw [hframe.1]
  have hcnt : s.entity_id ≤ (add_entity_core env s c).1.entity_id := by
    rcases hdisj with ⟨h1, _⟩ | ⟨h1, _⟩ <;> omega
  have hidlt : (add_entity_core env s c).2 < (add_entity_core env s c).1.entity_id := by
    rcases hdisj with ⟨h1, hlt⟩ | ⟨h1, heqn⟩ <;> omega
  constructor
  · refine ⟨by rw [hents]; exact hnd', by rw [hents, hid]; exact hperm', ?_⟩
    rw [hid, hoccs]
    refine occIdsLt_appendOcc (occIdsLt_mono hcnt hocc) ?_
    intro i hi
    have : i = (add_entity_core env s c).2 := by
      cases hi; rfl
    rw [this]
    exact hidlt
  · rcases hdisj with ⟨ha, hb⟩ | ⟨ha, hb⟩
    · exact Or.inl ⟨by rw [hid, ha], by rw [h2]; exact hb⟩
    · exact Or.inr ⟨by rw [hid, ha], by rw [h2, hb]⟩

theorem runAdds_trace_shift (env : EpubEnv) :
    ∀ (l : List Call) (s : XRayState) (tr : List Nat),
      l.foldl
          (fun acc c =>
            let r := add_entity env acc.1 c
            (r.1, acc.2 ++ [r.2]))
          (s, tr)
        = ((runAdds env s l).1, tr ++ (runAdds env s l).2) := by
  intro l
  induction l with
  | nil => intro s tr; simp [runAdds]
  | cons c rest ih =>
    intro s tr
    rw [List.foldl_cons]
    show rest.foldl _ ((add_entity env s c).1, tr ++ [(add_entity env s c).2]) = _
    rw [ih]
    have hrhs : runAdds env s (c :: rest)
        = ((runAdds env (add_entity env s c).1 rest).1,
           [(add_entity env s c).2] ++ (runAdds env (add_entity env s c).1 rest).2) := by
      show (c :: rest).foldl _ (s, []) = _
      rw [List.foldl_cons]
      show rest.foldl _ ((add_entity env s c).1, [] ++ [(add_entity env s c).2]) = _
      rw [ih]
      simp
    rw [hrhs]
    simp

theorem runAdds_split (env : EpubEnv) (s : XRayState) (l₁ l₂ : List Call) :
    runAdds env s (l₁ ++ l₂)
      = ((runAdds env (runAdds env s l₁).1 l₂).1,
         (runAdds env s l₁).2 ++ (runAdds env (runAdds env s l₁).1 l₂).2) := by
  show (l₁ ++ l₂).foldl _ (s, []) = _
  rw [List.foldl_append]
  show l₂.foldl _ ((runAdds env s l₁).1, (runAdds env s l₁).2) = _
  rw [runAdds_trace_shift]

theorem runAdds_length (env : EpubEnv) :
    ∀ (l : List Call) (s : XRayState), (runAdds env s l).2.length = l.length := by
  intro l
  induction l with
  | nil => intro s; rfl
  | cons c rest ih =>
    intro s
    have h : runAdds env s (c :: rest)
        = ((runAdds env (add_entity env s c).1 rest).1,
           [(add_entity env s c).2] ++ (runAdds env (add_entity env s c).1 rest).2) := by
      show (c :: rest).foldl _ (s, []) = _
      rw [List.foldl_cons]
      show rest.foldl _ ((add_entity env s c).1, [] ++ [(add_entity env s c).2]) = _
      rw [runAdds_trace_shift]
      simp
    rw [h]
    simp [ih]

theorem runAdds_trace_take (env : EpubEnv) (s : XRayState) (calls : List Call)
    (n : Nat) :
    (runAdds env s calls).2.take n = (runAdds env s (calls.take n)).2 := by
  by_cases hn : n ≤ calls.length
  · conv_lhs => rw [← List.take_append_drop n calls]
    rw [runAdds_split]
    show ((runAdds env s (calls.take n)).2 ++ _).take n = _
    refine List.take_left' ?_
    rw [runAdds_length]
    simp [hn]
  · have h1 : calls.take n = calls := List.take_of_length_le (by omega)
    rw [h1, List.take_of_length_le (by rw [runAdds_length]; omega)]

theorem runAdds_inv (env : EpubEnv) (calls : List Call) :
    ResolverInv (runAdds env initState calls).1
    ∧ (∀ i, i ∈ (runAdds env initState calls).2
        ↔ i < (runAdds env initState calls).1.entity_id) := by
  induction calls using List.reverseRecOn with
  | nil =>
    constructor
    · refine ⟨by simp [keysNodup, initState, runAdds], by simp [initState, runAdds], ?_⟩
      intro p hp
      simp [initState, runAdds] at hp
    · intro i
      simp [initState, runAdds]
  | append_singleton l c ih =>
    obtain ⟨hinv, htr⟩ := ih
    obtain ⟨hinv', hdisj⟩ := add_entity_step env (runAdds env initState l).1 c hinv
    rw [runAdds_split env initState l [c]]
    have hsingle : runAdds env (runAdds env initState l).1 [c]
        = ((add_entity env (runAdds env initState l).1 c).1,
           [(add_entity env (runAdds env initState l).1 c).2]) := by
      show [c].foldl _ (_, []) = _
      rw [List.foldl_cons]
      rfl
    rw [hsingle]
    constructor
    · exact hinv'
    · intro i
      simp only [List.mem_append, List.mem_singleton]
      rcases hdisj with ⟨hid, hlt⟩ | ⟨hid, heqn⟩
      · rw [hid]
        constructor
        · rintro (h | rfl)
          · exact (htr i).1 h
          · exact hlt
        · intro h
          exact Or.inl ((htr i).2 h)
      · rw [hid]
        constructor
        · rintro (h | rfl)
          · have := (htr i).1 h
            omega
          · rw [heqn]
            omega
        · intro h
          by_cases hi : i < (runAdds env initState l).1.entity_id
          · exact Or.inl ((htr i).2 hi)
          · right
            have hieq : i = (runAdds env initState l).1.entity_id := by omega
            rw [hieq, ← heqn]

/-- C2: over any sequence of `add_entity` calls from the initial state, the
ids recorded in the occurrence trace are exactly `{0, ..., k-1}` where `k` is
the final id counter (the number of clusters created); the multiset of record
ids in the entity table is exactly `{0, ..., k-1}` as well, with no id shared
by two records (ids are never reused, even across fuller-name merges); ids
are assigned in strictly increasing order of first occurrence (every prefix
of the trace is downward closed: an id appears only after all smaller ids
have appeared); and every recorded occurrence — including those of
merged-away surface strings — carries the id of a record still present in
the table, never a dangling id. -/
theorem add_entity_id_invariants (env : EpubEnv) (calls : List Call) :
    (∀ i, i ∈ (runAdds env initState calls).2
        ↔ i < (runAdds env initState calls).1.entity_id)
    ∧ ((runAdds env initState calls).1.entities.map (fun p => p.2.id)).Perm
        (List.range (runAdds env initState calls).1.entity_id)
    ∧ ((runAdds env initState calls).1.entities.map (fun p => p.2.id)).Nodup
    ∧ (∀ n j, j ∈ (runAdds env initState calls).2.take n →
        ∀ i < j, i ∈ (runAdds env initState calls).2.take n)
    ∧ (∀ p ∈ (runAdds env initState calls).1.entity_occurrences, ∀ o ∈ p.2,
        ∀ i, o.ref = AnnRef.ent i →
          ∃ q ∈ (runAdds env initState calls).1.entities, q.2.id = i) := by
  obtain ⟨⟨hnd, hperm, hocc⟩, htr⟩ := runAdds_inv env calls
  refine ⟨htr, hperm, ?_, ?_, ?_⟩
  · exact hperm.symm.nodup (List.nodup_range _)
  · intro n j hj i hij
    rw [runAdds_trace_take] at hj ⊢
    obtain ⟨_, htr_n⟩ := runAdds_inv env (calls.take n)
    exact (htr_n i).2 (lt_trans hij ((htr_n j).1 hj))
  · intro p hp o ho i hi
    have hlt := hocc p hp o ho i hi
    have hmem : i ∈ (runAdds env initState calls).1.entities.map (fun p => p.2.id) :=
      hperm.mem_iff.2 (List.mem_range.2 hlt)
    obtain ⟨q, hq, hqi⟩ := List.mem_map.1 hmem
    exact ⟨q, hq, hqi⟩

theorem add_entity_ordered (env : EpubEnv)
    (hnp : ∀ a b c d, env.is_full_name a b c d = false)
    (s : XRayState) (c : Call) (h : OrderedInv s) :
    OrderedInv (add_entity env s c).1 := by
  obtain ⟨hnd, hmap⟩ := h
  have hperm : (s.entities.map (fun p => p.2.id)).Perm (List.range s.entity_id) := by
    rw [hmap]
  obtain ⟨hnd', _, _⟩ := add_entity_core_step env s c hnd hperm
  have hents : (add_entity env s c).1.entities = (add_entity_core env s c).1.entities :=
    rfl
  refine ⟨by rw [keysNodup, hents]; exact hnd', ?_⟩
  rw [hents]
  show ((add_entity_core env s c).1.entities.map (fun p => p.2.id))
      = List.range (add_entity_core env s c).1.entity_id
  cases hx : lookupDict s.entities c.entity with
  | some d =>
    obtain ⟨l₁, l₂, heq, h₁, h₂⟩ := lookupDict_decomp hnd hx
    have hcore : add_entity_core env s c
        = ({ s with entities := (dictSet s.entities c.entity
              { d with count := d.count + 1 }) }, d.id) := by
      simp only [add_entity_core, hx]
    rw [hcore]
    show ((dictSet s.entities c.entity { d with count := d.count + 1 }).map
        (fun p => p.2.id)) = List.range s.entity_id
    rw [heq, dictSet_decomp l₁ l₂ c.entity d _ h₁]
    rw [heq] at hmap
    simpa using hmap
  | none =>
    cases hy : (if c.entity ∈ env.custom_x_ray then none
                else extractOne env.scorer c.entity s.entities env.fuzz_threshold) with
    | some r =>
      have hfz : extractOne env.scorer c.entity s.entities env.fuzz_threshold
          = some r := by
        by_cases hcust : c.entity ∈ env.custom_x_ray
        · rw [if_pos hcust] at hy; cases hy
        · rw [if_neg hcust] at hy; exact hy
      have hmem : r.1 ∈ s.entities := extractOne_mem hfz
      have hlook : lookupDict s.entities r.1.1 = some r.1.2 :=
        lookupDict_of_mem hnd hmem
      obtain ⟨l₁, l₂, heq, h₁, h₂⟩ := lookupDict_decomp hnd hlook
      have hcore : add_entity_core env s c = ({ s with entities :=
            (if env.is_full_name r.1.1 r.1.2.label c.entity c.ner_label
             then eraseKey (dictSet (dictSet s.entities r.1.1
                    { r.1.2 with count := r.1.2.count + 1 }) c.entity
                    { r.1.2 with count := r.1.2.count + 1 }) r.1.1
             else dictSet s.entities r.1.1
                    { r.1.2 with count := r.1.2.count + 1 }) },
          r.1.2.id) := by
        simp only [add_entity_core, hx, hy]
      rw [hcore]
      have hnop : ¬ env.is_full_name r.1.1 r.1.2.label c.entity c.ner_label = true := by
        rw [hnp]
        simp
      rw [if_neg hnop]
      show ((dictSet s.entities r.1.1 { r.1.2 with count := r.1.2.count + 1 }).map
          (fun p => p.2.id)) = List.range s.entity_id
      rw [heq, dictSet_decomp l₁ l₂ _ _ _ h₁]
      rw [heq] at hmap
      simpa using hmap
    | none =>
      have he_keys : ∀ p ∈ s.entities, p.1 ≠ c.entity :=
        (lookupDict_eq_none_iff _ _).1 hx
      have hcore : add_entity_core env s c = ({ s with
            entities := (dictSet s.entities c.entity
              ⟨s.entity_id, c.ner_label, c.book_quote, 1⟩),
            entity_id := s.entity_id + 1 }, s.entity_id) := by
        simp only [add_entity_core, hx, hy]
      rw [hcore]
      show ((dictSet s.entities c.entity
          ⟨s.entity_id, c.ner_label, c.book_quote, 1⟩).map (fun p => p.2.id))
        = List.range (s.entity_id + 1)
      rw [dictSet_absent _ he_keys]
      have hr : List.range (s.entity_id + 1)
          = List.range s.entity_id ++ [s.entity_id] := by
        simp [List.range_succ]
      rw [hr]
      simp [hmap]

theorem runAdds_ordered (env : EpubEnv)
    (hnp : ∀ a b c d, env.is_full_name a b c d = false) (calls : List Call) :
    OrderedInv (runAdds env initState calls).1 := by
  induction calls using List.reverseRecOn with
  | nil =>
    exact ⟨by simp [keysNodup, initState, runAdds], by simp [initState, runAdds]⟩
  | append_singleton l c ih =>
    rw [runAdds_split env initState l [c]]
    have hsingle : runAdds env (runAdds env initState l).1 [c]
        = ((add_entity env (runAdds env initState l).1 c).1,
           [(add_entity env (runAdds env initState l).1 c).2]) := by
      show [c].foldl _ (_, []) = _
      rw [List.foldl_cons]
      rfl
    rw [hsingle]
    exact add_entity_ordered env hnp _ c ih

theorem eraseKey_sublist {α : Type} (l : List (String × α)) (k : String) :
    (eraseKey l k).Sublist l := by
  induction l with
  | nil => exact List.Sublist.refl _
  | cons p rest ih =>
    by_cases hk : p.1 = k
    · simp only [eraseKey, hk, beq_self_eq_true, if_true]
      exact List.sublist_cons_self p rest
    · simp only [eraseKey, beq_iff_eq, hk, if_false]
      exact ih.cons₂ p

theorem prune_sublist (env : EpubEnv) (m : Nat) :
    ∀ (todo : List (String × EntityData)) (st : XRayState),
      ((todo.foldl (pruneStep env m) st).entities).Sublist st.entities := by
  intro todo
  induction todo with
  | nil => intro st; exact List.Sublist.refl _
  | cons p rest ih =>
    intro st
    rw [List.foldl_cons]
    refine (ih (pruneStep env m st p)).trans ?_
    unfold pruneStep
    by_cases hs : suppressCond env m p
    · rw [if_pos hs]
      exact eraseKey_sublist st.entities p.1
    · rw [if_neg hs]

/-- Counterexample to C5 as stated: running `promoCalls` ("John" creates
id 0, "Mary" creates id 1, then "John Smith" fuzzy-merges into id 0 with a
fuller-name promotion) leaves the footnote builder's iteration order as
`[1, 0]` — the promotion re-inserts the re-keyed record at the END of the
Python dict's insertion order, so the emitted footnote sequence is NOT the
first-occurrence order `[0, 1]` of the ids. -/
theorem x_ray_footnotes_order_promotion_cex :
    x_ray_footnote_ids (runAdds promoEnv initState promoCalls).1 = [1, 0]
    ∧ ¬ List.Pairwise (fun a b => a < b)
        (x_ray_footnote_ids (runAdds promoEnv initState promoCalls).1) := by
  have h1 : x_ray_footnote_ids (runAdds promoEnv initState promoCalls).1 = [1, 0] := by
    rfl
  refine ⟨h1, ?_⟩
  rw [h1]
  intro h
  rcases List.pairwise_cons.1 h with ⟨hlt, _⟩
  exact absurd (hlt 0 (by simp)) (by omega)

/-- C5 amended: the footnote builder emits entity entries in the entity
table's iteration order, skipping suppressed ids (which `remove_entities`
removed from the table); when no fuller-name promotion fires during the run,
this order IS the first-occurrence order of the entity ids (the emitted id
sequence is strictly increasing).  A promotion, however, moves the re-keyed
record to the end of the table order (see the counterexample). -/
theorem x_ray_footnotes_order_no_promotion (env : EpubEnv) (calls : List Call)
    (m : Nat) (hnp : ∀ a b c d, env.is_full_name a b c d = false) :
    List.Pairwise (fun a b => a < b)
      (x_ray_footnote_ids
        (remove_entities env m (runAdds env initState calls).1)) := by
  obtain ⟨hnd, hmap⟩ := runAdds_ordered env hnp calls
  have hsub : ((remove_entities env m (runAdds env initState calls).1).entities).Sublist
      (runAdds env initState calls).1.entities :=
    prune_sublist env m (runAdds env initState calls).1.entities
      (runAdds env initState calls).1
  have hsubids : (x_ray_footnote_ids
        (remove_entities env m (runAdds env initState calls).1)).Sublist
      (x_ray_footnote_ids (runAdds env initState calls).1) := by
    show ((remove_entities env m (runAdds env initState calls).1).entities.map
        (fun p => p.2.id)).Sublist
      ((runAdds env initState calls).1.entities.map (fun p => p.2.id))
    exact hsub.map (fun p => p.2.id)
  have hpair : List.Pairwise (fun a b => a < b)
      (x_ray_footnote_ids (runAdds env initState calls).1) := by
    rw [x_ray_footnote_ids, hmap]
    exact List.pairwise_lt_range _
  exact hpair.sublist hsubids

/-- Witness for the amended C5: two mentions with no promotion, pruning
threshold 1 (pruning disabled), footnote ids in increasing order. -/
theorem x_ray_footnotes_order_no_promotion_witness :
    List.Pairwise (fun a b => a < b)
      (x_ray_footnote_ids
        (remove_entities pruneEnv 1
          (runAdds pruneEnv initState
            [⟨"Alice", "PERSON", "q", 0, 5, "part", "Alice"⟩,
             ⟨"Bob", "PERSON", "q", 6, 9, "part", "Bob"⟩]).1)) :=
  x_ray_footnotes_order_no_promotion pruneEnv
    [⟨"Alice", "PERSON", "q", 0, 5, "part", "Alice"⟩,
     ⟨"Bob", "PERSON", "q", 6, 9, "part", "Bob"⟩] 1
    (fun _ _ _ _ => rfl)

/-- C6: the inline-markup choice for a lemma annotation compares the
character length of the short gloss to the character length of the word via a
language-dependent ratio threshold — 5 when the language is in the CJK list,
2.5 otherwise.  When gloss-length divided by word-length exceeds the
threshold, a plain noteref wrapper is emitted with no inline gloss; otherwise
a ruby-decorated wrapper carrying the inline short gloss between
parenthetical fallback markers is emitted. -/
theorem build_word_wise_tag_ratio (env : EpubEnv) (lemmas : List (String × Nat))
    (lang word origin_word : String) (hw : 0 < word.length) :
    (((env.lemma_glosses word).1.length : ℚ) / (word.length : ℚ)
        > (if lang ∈ env.cjk_langs then (5 : ℚ) else 2.5) →
      build_word_wise_tag env lemmas lang word origin_word
        = "<a epub:type=\"noteref\" href=\"word_wise.xhtml#"
            ++ toString ((lookupDict lemmas word).getD 0) ++ "\">"
            ++ origin_word ++ "</a>")
    ∧ (((env.lemma_glosses word).1.length : ℚ) / (word.length : ℚ)
        ≤ (if lang ∈ env.cjk_langs then (5 : ℚ) else 2.5) →
      build_word_wise_tag env lemmas lang word origin_word
        = "<ruby><a epub:type=\"noteref\" href=\"word_wise.xhtml#"
            ++ toString ((lookupDict lemmas word).getD 0)
            ++ "\">" ++ origin_word ++ "</a><rp>(</rp><rt>"
            ++ (env.lemma_glosses word).1
            ++ "</rt><rp>)</rp></ruby>") := by
  constructor
  · intro h
    simp only [build_word_wise_tag]
    rw [if_pos h]
  · intro h
    simp only [build_word_wise_tag]
    rw [if_neg (not_lt.2 h)]

/-- Witness for C6 at the spec's concrete example: word "cat" (length 3) with
a 20-character gloss gives ratio 20/3 > 2.5, hence the plain wrapper; a
5-character gloss gives 5/3 ≤ 2.5, hence the inline ruby gloss. -/
theorem build_word_wise_tag_ratio_witness :
    build_word_wise_tag glossLongEnv [("cat", 0)] "en" "cat" "cat"
        = "<a epub:type=\"noteref\" href=\"word_wise.xhtml#0\">cat</a>"
    ∧ build_word_wise_tag glossShortEnv [("cat", 0)] "en" "cat" "cat"
        = "<ruby><a epub:type=\"noteref\" href=\"word_wise.xhtml#0\">cat</a><rp>(</rp><rt>abcde</rt><rp>)</rp></ruby>" := by
  constructor
  · have h := (build_word_wise_tag_ratio glossLongEnv [("cat", 0)] "en" "cat" "cat"
      (by decide)).1
      (by
        rw [show (glossLongEnv.lemma_glosses "cat").1.length = 20 from rfl,
          show ("cat" : String).length = 3 from rfl,
          if_neg (show ¬ ("en" ∈ glossLongEnv.cjk_langs) by decide)]
        norm_num)
    rw [h]
    rfl
  · have h := (build_word_wise_tag_ratio glossShortEnv [("cat", 0)] "en" "cat" "cat"
      (by decide)).2
      (by
        rw [show (glossShortEnv.lemma_glosses "cat").1.length = 5 from rfl,
          show ("cat" : String).length = 3 from rfl,
          if_neg (show ¬ ("en" ∈ glossShortEnv.cjk_langs) by decide)]
        norm_num)
    rw [h]
    rfl

/-- C7: every row emitted by `find_lemma` has its start offset equal to the
fragment offset plus the length of the prefix before the match, measured in
the unit native to the format (characters for KFX, UTF-8 bytes otherwise);
the end offset is present exactly when the matched lemma text contains a
space, and then equals the start plus the lemma text's length in the same
unit (so end minus start is the lemma's length in that unit). -/
theorem find_lemma_offsets (start : Nat) (text : List Char) (hits : List KwMatch)
    (is_kfx : Bool) (i : Nat) (m : KwMatch)
    (hm : hits[i]? = some m)
    (hv : m.tokenStart ≤ m.tokenEnd ∧ m.tokenEnd ≤ text.length) :
    (find_lemma start text hits is_kfx)[i]?
      = some (start + unitLen is_kfx (text.take m.tokenStart),
          (if (' ' ∈ slice text m.tokenStart m.tokenEnd)
           then some (start + unitLen is_kfx (text.take m.tokenStart)
                      + unitLen is_kfx (slice text m.tokenStart m.tokenEnd))
           else none),
          m.data) := by
  have hts : m.tokenStart ≤ text.length := le_trans hv.1 hv.2
  unfold find_lemma
  rw [List.getElem?_map, hm]
  cases is_kfx with
  | false =>
    simp [unitLen]
  | true =>
    simp [unitLen, List.length_take, Nat.min_eq_left hts]

/-- Witness for C7: the multi-token lemma "the cat" (with a space) in the
fragment "the cat s" at byte offsets. -/
theorem find_lemma_offsets_witness :
    (find_lemma 100 "the cat s".data [⟨"d", 0, 7⟩] false)[0]?
      = some (100 + unitLen false ("the cat s".data.take 0),
          (if (' ' ∈ slice "the cat s".data 0 7)
           then some (100 + unitLen false ("the cat s".data.take 0)
                      + unitLen false (slice "the cat s".data 0 7))
           else none),
          "d") :=
  find_lemma_offsets 100 "the cat s".data [⟨"d", 0, 7⟩] false 0 ⟨"d", 0, 7⟩
    (by decide) (by decide)

end WordDumb
